import Mathlib

/- Verification development for the PDF-Crawler repository
   (src/pdf_crawler/crawler.py and its collaborators).

   The Python source is shallowly embedded below.  External library
   behaviour (urllib.parse, BeautifulSoup, requests, the file system) is
   modelled explicitly: parsed HTML is represented as the list of element
   tags BeautifulSoup would traverse, URLs are plain strings manipulated
   with explicit models of urldefrag / urlparse / urljoin, and the
   network / disk are oracles passed in as functions. -/

/-- Python str.startswith, expressed on the character lists of the strings. -/
def strStartsWith (s p : String) : Bool := p.toList.isPrefixOf s.toList

/-- Python str.endswith, expressed on the character lists of the strings. -/
def strEndsWith (s p : String) : Bool := p.toList.isSuffixOf s.toList

/-- String concatenation, kept explicit on character lists so that proofs
can compute with it. -/
def strCat (a b : String) : String := ⟨a.toList ++ b.toList⟩

/-- Python str.lower (sufficient for the ASCII URLs the crawler handles). -/
def lowerStr (s : String) : String := ⟨s.toList.map Char.toLower⟩

/-- Model of urllib.parse.urldefrag, first component: the part of the URL
before the first '#' (CrawlSession._normalize returns exactly this). -/
def defrag (s : String) : String := ⟨s.toList.takeWhile (fun c => c != '#')⟩

/-- Characters urllib.parse allows inside a URL scheme. -/
def isSchemeChar (c : Char) : Bool := c.isAlphanum || c == '+' || c == '-' || c == '.'

/-- Model of the scheme-splitting step of urllib.parse.urlparse: if the URL
starts with `scheme:` for a well-formed scheme, return the lowercased scheme
and the remainder after the colon; otherwise no scheme and the whole URL. -/
def schemeSplit (s : String) : Option String × String :=
  let l := s.toList
  let pre := l.takeWhile (fun c => c != ':')
  if decide (pre.length < l.length) && !pre.isEmpty && (pre.headD ' ').isAlpha
      && pre.all isSchemeChar then
    (some ⟨pre.map Char.toLower⟩, ⟨l.drop (pre.length + 1)⟩)
  else (none, s)

/-- Model of urllib.parse.urlparse(...).scheme (empty scheme as none). -/
def urlScheme (s : String) : Option String := (schemeSplit s).1

/-- Model of urllib.parse.urlparse(...).netloc: present only when the
remainder after the scheme starts with "//", and extends up to the next
'/', '?' or '#'. -/
def netloc (s : String) : String :=
  match (schemeSplit s).2.toList with
  | '/' :: '/' :: tail => ⟨tail.takeWhile (fun c => c != '/' && c != '?' && c != '#')⟩
  | _ => ""

/-- Model of urllib.parse.urlparse(...).path. -/
def pathOf (s : String) : String :=
  match (schemeSplit s).2.toList with
  | '/' :: '/' :: tail =>
      ⟨(tail.dropWhile (fun c => c != '/' && c != '?' && c != '#')).takeWhile
        (fun c => c != '?' && c != '#')⟩
  | l => ⟨l.takeWhile (fun c => c != '?' && c != '#')⟩

/-- Directory part of a URL path, up to and including the last '/', as used
by the relative-reference merge of urljoin; "/" when the path has no '/'. -/
def dirUp (p : String) : String :=
  let l := p.toList
  if l.contains '/' then ⟨(l.reverse.dropWhile (fun c => c != '/')).reverse⟩ else "/"

/-- Model of urllib.parse.urljoin, covering the cases the crawler exercises:
an empty reference keeps the base, a reference with its own scheme is kept
as is, a network-path reference inherits the base scheme, an absolute path
replaces the base path, and any other reference is merged onto the base
path directory. -/
def urljoin (base url : String) : String :=
  if url = "" then base
  else
    match urlScheme url with
    | some _ => url
    | none =>
      let sch := match urlScheme base with
        | some sc => strCat sc ":"
        | none => ""
      if strStartsWith url "//" then strCat sch url
      else
        let root := strCat (strCat sch "//") (netloc base)
        if strStartsWith url "/" then strCat root url
        else strCat root (strCat (dirUp (pathOf base)) url)

/-- One parsed HTML element as BeautifulSoup presents it to the crawler:
its tag name, its attributes, its own visible text (get_text with
strip=True), and the visible text of its nearest ancestor (find_parent),
when it has one. -/
structure Tag where
  name : String
  attrs : List (String × String)
  text : String
  parentText : Option String
deriving DecidableEq

/-- Python tag.get(key): the attribute value when the attribute is present. -/
def Tag.get (t : Tag) (k : String) : Option String :=
  (t.attrs.find? (fun p => p.1 == k)).map (fun p => p.2)

/-- The parsed document (BeautifulSoup(result.content, "html.parser")):
the element tags in document order, plus the length of the document-level
visible text soup.get_text(strip=True). -/
structure Soup where
  tags : List Tag
  textLen : Nat
deriving DecidableEq

/-- fetchers.FetchResult, with the body carried in parsed form. -/
structure FetchResult where
  url : String
  content : Soup
  final_url : String
  from_playwright : Bool := false
  detected_pdfs : Option (List (String × String)) := none
  content_type : Option String := none
deriving DecidableEq

/-- Python truthiness of an optional string: present and non-empty. -/
def truthyStr : Option String → Bool
  | some s => !s.isEmpty
  | none => false

/-- Python chained `or` over optional strings followed by a falsiness test:
the first truthy value, if any. -/
def firstTruthy : List (Option String) → Option String
  | [] => none
  | o :: rest => if truthyStr o then o else firstTruthy rest

/-- Python truthiness of the optional detected_pdfs dict: present and
non-empty. -/
def detectedNonempty : Option (List (String × String)) → Bool
  | some l => !l.isEmpty
  | none => false

/-- The predicate of the find_all lambda in CrawlSession._requires_playwright,
with Python's operator precedence kept as written:
`(tag.name in {"a","iframe","embed"} and tag.get("href")) or tag.get("src")`. -/
def navTagHit (t : Tag) : Bool :=
  ((["a", "iframe", "embed"] : List String).contains t.name && truthyStr (t.get "href"))
    || truthyStr (t.get "src")

/-- soup.find_all(lambda ...) in _requires_playwright is non-empty. -/
def hasNavTag (s : Soup) : Bool := s.tags.any navTagHit

/-- len(soup.find_all("script")). -/
def countScripts (s : Soup) : Nat := (s.tags.filter (fun t => t.name == "script")).length

/-- soup.find(attrs={key: True}): some element carries the attribute. -/
def hasAttrPresent (s : Soup) (k : String) : Bool := s.tags.any (fun t => (t.get k).isSome)

/-- soup.find(id=v): some element has id exactly v. -/
def hasIdValue (s : Soup) (v : String) : Bool := s.tags.any (fun t => t.get "id" == some v)

/-- CrawlSession._requires_playwright: the fetch strategy selector. -/
def requiresPlaywright (r : FetchResult) : Bool :=
  if detectedNonempty r.detected_pdfs then false
  else if hasNavTag r.content then false
  else if decide (countScripts r.content > 10) && decide (r.content.textLen < 200) then true
  else if hasAttrPresent r.content "data-reactroot" || hasAttrPresent r.content "data-reactid" then
    true
  else if hasAttrPresent r.content "ng-app" || hasIdValue r.content "app" then true
  else false

/-- The per-session data the extraction layer reads: the seed URL of the
configuration and the depth bound (config.url, config.max_depth). -/
structure Session where
  seedUrl : String
  maxDepth : Nat
deriving DecidableEq

/-- self.allowed_domains = {urlparse(config.url).netloc}. -/
def Session.allowedDomains (s : Session) : List String := [netloc s.seedUrl]

/-- CrawlSession._is_same_domain. -/
def isSameDomain (sess : Session) (url : String) : Bool :=
  sess.allowedDomains.contains (netloc url)

/-- The generator loop of CrawlSession._extract_links, with its local seen
set: anchors with an href attribute, mailto:/javascript: references skipped,
the reference joined onto the final URL and fragment-stripped, kept when it
is same-domain and not already yielded. -/
def extractLinksAux (sess : Session) (base : String) : List Tag → List String → List String
  | [], _ => []
  | t :: rest, seen =>
    if t.name == "a" && (t.get "href").isSome then
      let href := (t.get "href").getD ""
      if strStartsWith href "mailto:" || strStartsWith href "javascript:" then
        extractLinksAux sess base rest seen
      else
        let absolute := defrag (urljoin base href)
        if isSameDomain sess absolute && !seen.contains absolute then
          absolute :: extractLinksAux sess base rest (absolute :: seen)
        else extractLinksAux sess base rest seen
    else extractLinksAux sess base rest seen

/-- CrawlSession._extract_links on a fetch result. -/
def extractLinks (sess : Session) (r : FetchResult) : List String :=
  extractLinksAux sess r.final_url r.content.tags []

/-- Python dict assignment d[k] = v on an insertion-ordered association
list: overwrite in place when the key exists, append otherwise. -/
def dictAssign : List (String × Option String) → String → Option String →
    List (String × Option String)
  | [], k, v => [(k, v)]
  | p :: rest, k, v => if p.1 == k then (k, v) :: rest else p :: dictAssign rest k v

/-- Python dict.setdefault(k, v): keep the existing entry when the key is
present, append otherwise. -/
def setdefault : List (String × Option String) → String → Option String →
    List (String × Option String)
  | [], k, v => [(k, v)]
  | p :: rest, k, v => if p.1 == k then p :: rest else p :: setdefault rest k v

/-- Python dict lookup, returning the stored (key, value) entry. -/
def dictFind (m : List (String × Option String)) (k : String) :
    Option (String × Option String) :=
  m.find? (fun p => p.1 == k)

/-- CrawlSession._describe_context: the element's own visible text, else the
parent's visible text truncated to 200 characters, else none. -/
def describeContext (t : Tag) : Option String :=
  if !t.text.isEmpty then some t.text
  else match t.parentText with
    | some p => some (p.take 200)
    | none => none

/-- One DOM tag step of the CrawlSession._extract_pdfs loop. -/
def pdfStep (base : String) (m : List (String × Option String)) (t : Tag) :
    List (String × Option String) :=
  if (["a", "iframe", "embed", "object"] : List String).contains t.name then
    match firstTruthy [t.get "href", t.get "src", t.get "data"] with
    | none => m
    | some ua =>
      let absolute := defrag (urljoin base ua)
      if !strEndsWith (lowerStr absolute) ".pdf"
          && !(t.get "type" == some "application/pdf") then m
      else setdefault m absolute (describeContext t)
  else m

/-- CrawlSession._extract_pdfs: network-observed documents inserted first
with their fixed context label, then DOM-observed candidates merged with
setdefault; the result is the insertion-ordered list of (url, context)
pairs of the dict. -/
def extractPdfs (r : FetchResult) : List (String × Option String) :=
  let pdfs0 : List (String × Option String) :=
    match r.detected_pdfs with
    | some d =>
        if d.isEmpty then []
        else d.foldl (fun m p => dictAssign m p.2 (some "Detected via network request")) []
    | none => []
  r.content.tags.foldl (pdfStep r.final_url) pdfs0

/-- A parsed robots.txt ruleset: can_fetch as a function of the user agent
and the URL. -/
structure RobotRules where
  canFetch : String → String → Bool

/-- Python dict assignment on the robots cache. -/
def robotsCacheAssign : List (String × Option RobotRules) → String → Option RobotRules →
    List (String × Option RobotRules)
  | [], k, v => [(k, v)]
  | p :: rest, k, v => if p.1 == k then (k, v) :: rest else p :: robotsCacheAssign rest k v

/-- Python robots_cache.get(base): returns None both when the key is
missing and when the stored value is the None failure marker. -/
def robotsCacheGet (c : List (String × Option RobotRules)) (k : String) : Option RobotRules :=
  ((c.find? (fun p => p.1 == k)).map (fun p => p.2)).join

/-- f"{parsed.scheme}://{parsed.netloc}". -/
def originOf (url : String) : String :=
  strCat (strCat ((urlScheme url).getD "") "://") (netloc url)

/-- The outcome of one CrawlSession._is_allowed call: the returned Bool,
the robots cache afterwards, and whether a robots.txt read was attempted
during the call. -/
structure IsAllowedResult where
  allowed : Bool
  cache : List (String × Option RobotRules)
  fetchedRobots : Bool

/-- CrawlSession._is_allowed.  The robots.txt read (RobotFileParser.read on
urljoin(base, "/robots.txt")) is an oracle keyed by the origin: none models
the read raising, some rp the parsed ruleset. -/
def isAllowed (respectRobots : Bool) (readRobots : String → Option RobotRules)
    (cache : List (String × Option RobotRules)) (url : String) : IsAllowedResult :=
  if !respectRobots then ⟨true, cache, false⟩
  else
    let base := originOf url
    match robotsCacheGet cache base with
    | none =>
      match readRobots base with
      | none => ⟨true, robotsCacheAssign cache base none, true⟩
      | some rp =>
          ⟨rp.canFetch "UniversalPDFCrawler" url, robotsCacheAssign cache base (some rp), true⟩
    | some rp => ⟨rp.canFetch "UniversalPDFCrawler" url, cache, false⟩

/-- crawler.PageTask. -/
structure PageTask where
  url : String
  depth : Nat
deriving DecidableEq

/-- models.PDFDocument, restricted to the fields the crawl loop writes from
its own inputs (build_document copies url, source_page and context into the
returned document). -/
structure PDFDocument where
  source_page : String
  url : String
  context : Option String
deriving DecidableEq

/-- The mutable state of a CrawlSession run: the task queue, the visited
set, the in-flight tasks, the downloaded registry (self.downloaded, an
insertion-ordered dict), plus two observation logs: the URLs handed to
fetches in dispatch order, and every storage.build_document attempt as
(time, url, success).  The clock numbers the persistence attempts. -/
structure CrawlState where
  queue : List PageTask
  visited : List String
  inflight : List PageTask
  downloaded : List (String × PDFDocument)
  dispatchLog : List String
  persistLog : List (Nat × String × Bool)
  clock : Nat
deriving DecidableEq

/-- The environment of a run: the per-URL fetch outcome (_fetch_page), the
politeness verdict (_is_allowed), and whether a storage.build_document call
at a given time for a given URL succeeds or raises. -/
structure World where
  fetch : String → Option FetchResult
  robotsAllowed : String → Bool
  persist : Nat → String → Bool

/-- The document-registration loop of CrawlSession._process: for each
extracted (url, context), if the url is not yet a key of self.downloaded,
attempt storage.build_document; on success record the document under the
url, on an exception record nothing (the exception is logged and
swallowed). -/
def registerPdfs (w : World) (sourcePage : String) :
    CrawlState → List (String × Option String) → CrawlState
  | s, [] => s
  | s, (u, ctx) :: rest =>
    if s.downloaded.any (fun p => p.1 == u) then registerPdfs w sourcePage s rest
    else if w.persist s.clock u then
      registerPdfs w sourcePage
        { s with downloaded := s.downloaded ++ [(u, ⟨sourcePage, u, ctx⟩)],
                 persistLog := s.persistLog ++ [(s.clock, u, true)],
                 clock := s.clock + 1 } rest
    else
      registerPdfs w sourcePage
        { s with persistLog := s.persistLog ++ [(s.clock, u, false)],
                 clock := s.clock + 1 } rest

/-- The link-enqueueing loop of CrawlSession._process: links not in the
visited set are appended to the queue at the given depth. -/
def enqueueLinks (s : CrawlState) (links : List String) (d : Nat) : CrawlState :=
  { s with queue :=
      s.queue ++ (links.filter (fun l => !s.visited.contains l)).map (fun l => ⟨l, d⟩) }

/-- CrawlSession._process after its fetch completes: politeness gate, then
document registration, then link enqueueing when depth < max_depth. -/
def processTask (sess : Session) (w : World) (t : PageTask) (s : CrawlState) : CrawlState :=
  if !w.robotsAllowed t.url then s
  else
    match w.fetch t.url with
    | none => s
    | some r =>
      let s1 := registerPdfs w r.final_url s (extractPdfs r)
      if t.depth < sess.maxDepth then enqueueLinks s1 (extractLinks sess r) (t.depth + 1)
      else s1

/-- The state CrawlSession.run starts from: the seed task at depth 0. -/
def initState (sess : Session) : CrawlState :=
  { queue := [⟨sess.seedUrl, 0⟩], visited := [], inflight := [], downloaded := [],
    dispatchLog := [], persistLog := [], clock := 0 }

/-- One atomic step of the run loop.  The event loop interleaves only at
await points, so the dequeue-check-insert-dispatch block of run and the
whole post-fetch part of _process are single steps; which in-flight fetch
completes first is nondeterministic. -/
inductive CrawlStep (sess : Session) (w : World) : CrawlState → CrawlState → Prop
  | dispatch_skip (s : CrawlState) (t : PageTask) (rest : List PageTask)
      (hq : s.queue = t :: rest) (hv : t.url ∈ s.visited) :
      CrawlStep sess w s { s with queue := rest }
  | dispatch (s : CrawlState) (t : PageTask) (rest : List PageTask)
      (hq : s.queue = t :: rest) (hv : t.url ∉ s.visited) :
      CrawlStep sess w s
        { s with queue := rest, visited := t.url :: s.visited,
                 inflight := s.inflight ++ [t], dispatchLog := s.dispatchLog ++ [t.url] }
  | complete (s : CrawlState) (t : PageTask) (pre post : List PageTask)
      (hin : s.inflight = pre ++ t :: post) :
      CrawlStep sess w s (processTask sess w t { s with inflight := pre ++ post })

/-- The states a crawl session can reach from its initial state. -/
def Reach (sess : Session) (w : World) (s : CrawlState) : Prop :=
  Relation.ReflTransGen (CrawlStep sess w) (initState sess) s

/-- Registry invariant: the downloaded dict has pairwise-distinct keys,
every stored document carries its key as url, the successful persistence
attempts have pairwise-distinct URLs, and every successfully persisted URL
is a key of the registry. -/
def RegInv (s : CrawlState) : Prop :=
  (s.downloaded.map Prod.fst).Nodup ∧
  (∀ p ∈ s.downloaded, p.2.url = p.1) ∧
  ((s.persistLog.filter (fun e => e.2.2)).map (fun e => e.2.1)).Nodup ∧
  (∀ e ∈ s.persistLog, e.2.2 = true → e.2.1 ∈ s.downloaded.map Prod.fst)

/-- Scheduler invariant: the dispatch log has no duplicates, every
dispatched URL is in the visited set, every queued or in-flight task
respects the depth bound, and the registry invariant holds. -/
def SchedInv (sess : Session) (s : CrawlState) : Prop :=
  s.dispatchLog.Nodup ∧ (∀ u ∈ s.dispatchLog, u ∈ s.visited) ∧
  (∀ t ∈ s.queue, t.depth ≤ sess.maxDepth) ∧
  (∀ t ∈ s.inflight, t.depth ≤ sess.maxDepth) ∧
  RegInv s

/-- With max depth 0, no URL other than the seed ever appears among the
tasks or the visited set. -/
def SeedOnly (sess : Session) (s : CrawlState) : Prop :=
  (∀ t ∈ s.queue, t.url = sess.seedUrl) ∧ (∀ t ∈ s.inflight, t.url = sess.seedUrl) ∧
  (∀ u ∈ s.visited, u = sess.seedUrl)

/-- A client-shell page body consisting of script tags that carry src
attributes: eleven of these, no visible text, no anchor, no iframe, no
embed element anywhere in the document. -/
def scriptShellTag : Tag :=
  { name := "script", attrs := [("src", "app.js")], text := "", parentText := none }

/-- A static fetch result for the client-shell page. -/
def scriptShellResult : FetchResult :=
  { url := "http://example.com/"
    content := { tags := List.replicate 11 scriptShellTag, textLen := 0 }
    final_url := "http://example.com/" }

/-- A fetch result whose body would otherwise demand rendering (a React
mount marker) but which carries an in-band observed PDF response. -/
def pdfDirectResult : FetchResult :=
  { url := "http://example.com/report.pdf"
    content := { tags := [{ name := "div", attrs := [("data-reactroot", "")],
                            text := "", parentText := none }], textLen := 0 }
    final_url := "http://example.com/report.pdf"
    detected_pdfs := some [("http://example.com/report.pdf", "http://example.com/report.pdf")] }

/-- The seed page of the concrete scenario: a same-domain PDF link, a
same-domain navigation link, and an off-domain PDF link. -/
def seedPage : FetchResult :=
  { url := "http://example.com/"
    content :=
      { tags :=
          [ { name := "a", attrs := [("href", "/docs/report.pdf")], text := "Report",
              parentText := none },
            { name := "a", attrs := [("href", "/next")], text := "Next", parentText := none },
            { name := "a", attrs := [("href", "http://cdn.example.org/white.pdf")],
              text := "White paper", parentText := none } ]
        textLen := 30 }
    final_url := "http://example.com/" }

/-- The concrete session: seed http://example.com/, max depth 1. -/
def sess0 : Session := { seedUrl := "http://example.com/", maxDepth := 1 }

/-- The same seed with max depth 0. -/
def sess1 : Session := { seedUrl := "http://example.com/", maxDepth := 0 }

/-- The concrete environment: fetching the seed yields the seed page,
robots allows everything, every persistence attempt succeeds. -/
def world0 : World :=
  { fetch := fun u => if u == "http://example.com/" then some seedPage else none
    robotsAllowed := fun _ => true
    persist := fun _ _ => true }

/-- A session whose configured seed URL carries a fragment. -/
def fragSession : Session := { seedUrl := "http://example.com/page#top", maxDepth := 1 }

/-- An environment in which every fetch fails. -/
def trivialWorld : World :=
  { fetch := fun _ => none, robotsAllowed := fun _ => true, persist := fun _ _ => false }

/-- An environment whose persistence oracle fails at time 0 and succeeds
from time 1 on. -/
def retryWorld : World :=
  { fetch := fun _ => none, robotsAllowed := fun _ => true,
    persist := fun n _ => decide (1 ≤ n) }

/-- The state of the concrete scenario after the seed task was dispatched. -/
def dispatchedState : CrawlState :=
  { queue := [], visited := ["http://example.com/"],
    inflight := [⟨"http://example.com/", 0⟩], downloaded := [],
    dispatchLog := ["http://example.com/"], persistLog := [], clock := 0 }

/-- The state of the concrete scenario after the seed fetch completed and
was processed. -/
def reachedState : CrawlState :=
  processTask sess0 world0 ⟨"http://example.com/", 0⟩ { dispatchedState with inflight := [] }

/-- A robots read oracle that always fails (robots.txt unreachable). -/
def unreachableRobots : String → Option RobotRules := fun _ => none

/-- A page on which the same PDF URL is both observed as a network response
and referenced by an anchor carrying its own link text. -/
def dualPage : FetchResult :=
  { url := "http://example.com/files"
    content :=
      { tags := [ { name := "a", attrs := [("href", "http://example.com/files/a.pdf")],
                    text := "Annual report", parentText := none } ]
        textLen := 20 }
    final_url := "http://example.com/files"
    detected_pdfs := some [("http://example.com/files/a.pdf", "http://example.com/files/a.pdf")] }

/-- C1: the claim states that a result with no observed documents, more than
10 script elements, visible text under 200 characters and no
anchor/iframe/embed element with an href or src attribute makes
needsRendering return true.  The code returns false on such an input: the
find_all lambda in _requires_playwright parses as
`(name in set and href) or src` by Python precedence, so the eleven
`script src=...` elements satisfy it and the function exits early with
false before the script-count rule is reached. -/
theorem c1_script_src_shell_not_rendered :
    detectedNonempty scriptShellResult.detected_pdfs = false ∧
    countScripts scriptShellResult.content = 11 ∧
    scriptShellResult.content.textLen = 0 ∧
    (∀ t ∈ scriptShellResult.content.tags,
      (["a", "iframe", "embed"] : List String).contains t.name = false) ∧
    requiresPlaywright scriptShellResult = false := by
  decide

/-- C8: when the static result already carries a non-empty observedDocuments
mapping, the selector returns false regardless of the body content: the
detected_pdfs check is the first rule and short-circuits all later rules. -/
theorem c8_observed_documents_short_circuit (r : FetchResult)
    (h : detectedNonempty r.detected_pdfs = true) :
    requiresPlaywright r = false := by
  simp only [requiresPlaywright, h, if_true]

/-- C8 witness: the short-circuit theorem applied to a concrete result whose
body carries a rendering marker but whose observedDocuments is non-empty. -/
theorem c8_observed_documents_short_circuit_witness :
    detectedNonempty pdfDirectResult.detected_pdfs = true ∧
    requiresPlaywright pdfDirectResult = false :=
  ⟨by decide, c8_observed_documents_short_circuit pdfDirectResult (by decide)⟩

/-- C2: the claim states that after a failed robots.txt read the origin is
cached so that no later _is_allowed call for that origin reads robots.txt
again, populating the cache once per origin.  The code does return true
(fail-open) and does store the None marker, but dict.get returns None both
for a missing key and for the stored marker, so the very next call for the
same origin attempts the read again. -/
theorem c2_failed_robots_read_retried_every_call :
    (isAllowed true unreachableRobots [] "http://example.com/page").allowed = true ∧
    (isAllowed true unreachableRobots [] "http://example.com/page").cache
      = [("http://example.com", none)] ∧
    (isAllowed true unreachableRobots [] "http://example.com/page").fetchedRobots = true ∧
    (isAllowed true unreachableRobots
        (isAllowed true unreachableRobots [] "http://example.com/page").cache
        "http://example.com/page").fetchedRobots = true :=
  ⟨rfl, rfl, rfl, rfl⟩

/-- A dict assignment makes the assigned key map to the assigned value. -/
theorem dictFind_dictAssign_self (m : List (String × Option String)) (k : String)
    (v : Option String) : dictFind (dictAssign m k v) k = some (k, v) := by
  induction m with
  | nil => simp [dictAssign, dictFind, List.find?_cons]
  | cons p rest ih =>
    by_cases h : p.1 = k
    · simp [dictAssign, dictFind, List.find?_cons, h]
    · have hb : (p.1 == k) = false := beq_eq_false_iff_ne.mpr h
      simpa [dictAssign, dictFind, List.find?_cons, hb] using ih

/-- How a dict assignment changes an arbitrary lookup. -/
theorem dictFind_dictAssign_eq (m : List (String × Option String)) (k u : String)
    (v : Option String) :
    dictFind (dictAssign m k v) u = if u = k then some (k, v) else dictFind m u := by
  induction m with
  | nil =>
    by_cases h : u = k
    · subst h; simp [dictAssign, dictFind, List.find?_cons]
    · have hb : (k == u) = false := beq_eq_false_iff_ne.mpr (Ne.symm h)
      simp [dictAssign, dictFind, List.find?_cons, hb, h]
  | cons p rest ih =>
    by_cases hk : p.1 = k
    · have hb : (p.1 == k) = true := beq_iff_eq.mpr hk
      by_cases hu : u = k
      · subst hu
        simp [dictAssign, hb, dictFind, List.find?_cons]
      · have h1 : (k == u) = false := beq_eq_false_iff_ne.mpr (Ne.symm hu)
        have h2 : (p.1 == u) = false := by rw [hk]; exact h1
        simp [dictAssign, hb, dictFind, List.find?_cons, h1, h2, hu]
    · have hb : (p.1 == k) = false := beq_eq_false_iff_ne.mpr hk
      by_cases hpu : p.1 = u
      · have h2 : (p.1 == u) = true := beq_iff_eq.mpr hpu
        have hu : ¬ u = k := by rw [← hpu]; exact hk
        simp [dictAssign, hb, dictFind, List.find?_cons, h2, hu]
      · have h2 : (p.1 == u) = false := beq_eq_false_iff_ne.mpr hpu
        simp only [dictAssign, hb, Bool.false_eq_true, if_false, dictFind, List.find?_cons, h2]
        exact ih

/-- A dict assignment keeps every already-present key present. -/
theorem dictFind_dictAssign_isSome (m : List (String × Option String)) (k u : String)
    (v : Option String) (h : (dictFind m u).isSome) :
    (dictFind (dictAssign m k v) u).isSome := by
  rw [dictFind_dictAssign_eq]
  by_cases hu : u = k
  · simp [hu]
  · simpa [hu] using h

/-- Every entry after a dict assignment is an old entry or the assigned
pair. -/
theorem mem_dictAssign (m : List (String × Option String)) (k : String) (v : Option String)
    (q : String × Option String) (hq : q ∈ dictAssign m k v) : q ∈ m ∨ q = (k, v) := by
  induction m with
  | nil =>
    simp only [dictAssign, List.mem_singleton] at hq
    exact Or.inr hq
  | cons p rest ih =>
    by_cases h : p.1 = k
    · have hb : (p.1 == k) = true := beq_iff_eq.mpr h
      simp only [dictAssign, hb, if_true, List.mem_cons] at hq
      rcases hq with hq | hq
      · right; exact hq
      · left; exact List.mem_cons_of_mem _ hq
    · have hb : (p.1 == k) = false := beq_eq_false_iff_ne.mpr h
      simp only [dictAssign, hb, Bool.false_eq_true, if_false, List.mem_cons] at hq
      rcases hq with hq | hq
      · left; exact hq ▸ List.mem_cons_self _ _
      · rcases ih hq with h1 | h1
        · left; exact List.mem_cons_of_mem _ h1
        · right; exact h1

/-- setdefault keeps the binding of every already-present key. -/
theorem dictFind_setdefault_isSome_eq (m : List (String × Option String)) (k u : String)
    (v : Option String) (h : (dictFind m u).isSome) :
    dictFind (setdefault m k v) u = dictFind m u := by
  induction m with
  | nil => simp [dictFind, List.find?] at h
  | cons p rest ih =>
    by_cases hk : p.1 = k
    · have hb : (p.1 == k) = true := beq_iff_eq.mpr hk
      simp [setdefault, hb]
    · have hb : (p.1 == k) = false := beq_eq_false_iff_ne.mpr hk
      by_cases hpu : p.1 = u
      · have h2 : (p.1 == u) = true := beq_iff_eq.mpr hpu
        simp [setdefault, hb, dictFind, List.find?_cons, h2]
      · have h2 : (p.1 == u) = false := beq_eq_false_iff_ne.mpr hpu
        have h' : (dictFind rest u).isSome := by
          simpa [dictFind, List.find?_cons, h2] using h
        simp only [setdefault, hb, Bool.false_eq_true, if_false, dictFind,
          List.find?_cons, h2]
        exact ih h'

/-- One tag step of _extract_pdfs keeps the binding of every present key. -/
theorem dictFind_pdfStep_isSome_eq (base : String) (m : List (String × Option String))
    (t : Tag) (u : String) (h : (dictFind m u).isSome) :
    dictFind (pdfStep base m t) u = dictFind m u := by
  unfold pdfStep
  split
  · split
    · rfl
    · dsimp only
      split
      · rfl
      · exact dictFind_setdefault_isSome_eq _ _ _ _ h
  · rfl

/-- The whole DOM pass of _extract_pdfs keeps the binding of every key
present before it. -/
theorem dictFind_foldl_pdfStep (base : String) (tags : List Tag) :
    ∀ (m : List (String × Option String)) (u : String), (dictFind m u).isSome →
      dictFind (List.foldl (pdfStep base) m tags) u = dictFind m u := by
  induction tags with
  | nil => intro m u _; rfl
  | cons t rest ih =>
    intro m u h
    have h1 := dictFind_pdfStep_isSome_eq base m t u h
    have h2 : (dictFind (pdfStep base m t) u).isSome := by rw [h1]; exact h
    simpa [List.foldl_cons, h1] using ih (pdfStep base m t) u h2

/-- In the network pass of _extract_pdfs every stored value is the fixed
context label. -/
theorem network_fold_values (d : List (String × String)) (lbl : String) :
    ∀ (acc : List (String × Option String)),
      (∀ q ∈ acc, q.2 = some lbl) →
      ∀ q ∈ List.foldl (fun m p => dictAssign m p.2 (some lbl)) acc d, q.2 = some lbl := by
  induction d with
  | nil => intro acc hacc q hq; exact hacc q hq
  | cons p rest ih =>
    intro acc hacc q hq
    refine ih (dictAssign acc p.2 (some lbl)) ?_ q hq
    intro q' hq'
    rcases mem_dictAssign acc p.2 (some lbl) q' hq' with h | h
    · exact hacc q' h
    · rw [h]

/-- After the network pass every value URL of detected_pdfs is a present
key. -/
theorem network_fold_key_isSome (d : List (String × String)) (lbl : String) :
    ∀ (acc : List (String × Option String)) (u : String),
      (u ∈ d.map Prod.snd ∨ (dictFind acc u).isSome) →
      (dictFind (List.foldl (fun m p => dictAssign m p.2 (some lbl)) acc d) u).isSome := by
  induction d with
  | nil =>
    intro acc u h
    rcases h with h | h
    · simp at h
    · exact h
  | cons p rest ih =>
    intro acc u h
    rcases h with h | h
    · simp only [List.map_cons, List.mem_cons] at h
      rcases h with h | h
      · refine ih (dictAssign acc p.2 (some lbl)) u (Or.inr ?_)
        rw [h, dictFind_dictAssign_self]
        rfl
      · exact ih _ u (Or.inl h)
    · exact ih _ u (Or.inr (dictFind_dictAssign_isSome acc p.2 u (some lbl) h))

/-- A successful dict lookup returns an entry of the dict whose key is the
looked-up key. -/
theorem dictFind_eq_some_spec (m : List (String × Option String)) (u : String)
    (q : String × Option String) (h : dictFind m u = some q) : q ∈ m ∧ q.1 = u := by
  refine ⟨List.mem_of_find?_eq_some h, ?_⟩
  have := List.find?_some h
  exact beq_iff_eq.mp this

/-- C6: when a network-observed document URL also appears among the
DOM-observed candidates, extractDocuments keeps the network entry: the
merge is keyed by URL, the network entries are inserted first with the
fixed label, and the DOM pass uses setdefault, which never overrides a
present key. -/
theorem c6_network_context_wins (r : FetchResult) (d : List (String × String)) (u : String)
    (hd : r.detected_pdfs = some d) (hu : u ∈ d.map Prod.snd) :
    dictFind (extractPdfs r) u = some (u, some "Detected via network request") := by
  have hne : d.isEmpty = false := by
    cases d with
    | nil => simp at hu
    | cons a l => rfl
  unfold extractPdfs
  rw [hd]
  simp only [hne, Bool.false_eq_true, if_false]
  set lbl := "Detected via network request" with hlbl
  set pdfs0 := d.foldl (fun m p => dictAssign m p.2 (some lbl)) [] with hp0
  have hsome : (dictFind pdfs0 u).isSome :=
    network_fold_key_isSome d lbl [] u (Or.inl hu)
  obtain ⟨q, hq⟩ := Option.isSome_iff_exists.mp hsome
  obtain ⟨hqm, hqk⟩ := dictFind_eq_some_spec pdfs0 u q hq
  have hqv : q.2 = some lbl := by
    refine network_fold_values d lbl [] ?_ q hqm
    intro q' hq'; simp at hq'
  have hq' : dictFind pdfs0 u = some (u, some lbl) := by
    rw [hq]
    congr 1
    exact Prod.ext hqk hqv
  rw [dictFind_foldl_pdfStep r.final_url r.content.tags pdfs0 u (by rw [hq']; rfl)]
  exact hq'

/-- C6 witness: on the dual page the merged entry for the shared URL keeps
the network label even though the DOM anchor would have contributed its own
link text as context. -/
theorem c6_network_context_wins_witness :
    dictFind (extractPdfs dualPage) "http://example.com/files/a.pdf"
      = some ("http://example.com/files/a.pdf", some "Detected via network request") ∧
    describeContext { name := "a", attrs := [("href", "http://example.com/files/a.pdf")],
                      text := "Annual report", parentText := none }
      = some "Annual report" :=
  ⟨c6_network_context_wins dualPage _ _ rfl (by decide), rfl⟩

/-- The Python `in` check on a dict expressed through any: true exactly for
present keys. -/
theorem anyKey_iff_mem {β : Type} (m : List (String × β)) (u : String) :
    m.any (fun p => p.1 == u) = true ↔ u ∈ m.map Prod.fst := by
  rw [List.any_eq_true]
  constructor
  · rintro ⟨p, hp, hb⟩
    exact List.mem_map.mpr ⟨p, hp, beq_iff_eq.mp hb⟩
  · intro h
    obtain ⟨p, hp, he⟩ := List.mem_map.mp h
    exact ⟨p, hp, beq_iff_eq.mpr he⟩

/-- The registration loop only writes the downloaded registry, the
persistence log and the clock. -/
theorem registerPdfs_fields (w : World) (sp : String) :
    ∀ (l : List (String × Option String)) (s : CrawlState),
      (registerPdfs w sp s l).queue = s.queue ∧
      (registerPdfs w sp s l).visited = s.visited ∧
      (registerPdfs w sp s l).inflight = s.inflight ∧
      (registerPdfs w sp s l).dispatchLog = s.dispatchLog := by
  intro l
  induction l with
  | nil => intro s; exact ⟨rfl, rfl, rfl, rfl⟩
  | cons p rest ih =>
    intro s
    obtain ⟨u, ctx⟩ := p
    simp only [registerPdfs]
    split
    · exact ih s
    · split
      · exact ih _
      · exact ih _

/-- Every recorded persistence attempt stays recorded. -/
theorem registerPdfs_persistLog_mono (w : World) (sp : String) :
    ∀ (l : List (String × Option String)) (s : CrawlState) (e : Nat × String × Bool),
      e ∈ s.persistLog → e ∈ (registerPdfs w sp s l).persistLog := by
  intro l
  induction l with
  | nil => intro s e he; exact he
  | cons p rest ih =>
    intro s e he
    obtain ⟨u, ctx⟩ := p
    simp only [registerPdfs]
    split
    · exact ih s e he
    · split
      · exact ih _ e (List.mem_append_left _ he)
      · exact ih _ e (List.mem_append_left _ he)

/-- An extracted (url, context) whose url is not yet registered gets a
persistence attempt recorded by the registration loop. -/
theorem registerPdfs_attempts (w : World) (sp : String) :
    ∀ (l : List (String × Option String)) (s : CrawlState) (u : String) (c : Option String),
      (l.map Prod.fst).Nodup → (u, c) ∈ l → u ∉ s.downloaded.map Prod.fst →
      ∃ n b, (n, u, b) ∈ (registerPdfs w sp s l).persistLog := by
  intro l
  induction l with
  | nil => intro s u c _ hm _; exact absurd hm (List.not_mem_nil _)
  | cons p rest ih =>
    intro s u c hnd hm hku
    obtain ⟨v, cv⟩ := p
    rcases List.mem_cons.mp hm with heq | hm'
    · injection heq with h1 h2
      subst h1; subst h2
      have hany : s.downloaded.any (fun q => q.1 == u) = false := by
        cases hx : s.downloaded.any (fun q => q.1 == u) with
        | false => rfl
        | true => exact absurd ((anyKey_iff_mem _ _).mp hx) hku
      simp only [registerPdfs, hany, Bool.false_eq_true, if_false]
      by_cases hp : w.persist s.clock u = true
      · rw [if_pos hp]
        exact ⟨s.clock, true, registerPdfs_persistLog_mono w sp rest _ _
          (List.mem_append_right _ (List.mem_singleton.mpr rfl))⟩
      · rw [if_neg hp]
        exact ⟨s.clock, false, registerPdfs_persistLog_mono w sp rest _ _
          (List.mem_append_right _ (List.mem_singleton.mpr rfl))⟩
    · have hvne : v ≠ u := by
        intro hveq; subst hveq
        have hk : v ∈ rest.map Prod.fst := List.mem_map.mpr ⟨(v, c), hm', rfl⟩
        simp only [List.map_cons] at hnd
        exact absurd hk (List.nodup_cons.mp hnd).1
      have hnd' : (rest.map Prod.fst).Nodup := by
        simp only [List.map_cons] at hnd
        exact (List.nodup_cons.mp hnd).2
      simp only [registerPdfs]
      split
      · exact ih s u c hnd' hm' hku
      · split
        · refine ih _ u c hnd' hm' ?_
          intro hmem
          rcases List.mem_map.mp hmem with ⟨q, hq, hqe⟩
          rcases List.mem_append.mp hq with hq1 | hq2
          · exact hku (List.mem_map.mpr ⟨q, hq1, hqe⟩)
          · have hq3 : q = (v, (⟨sp, v, cv⟩ : PDFDocument)) := List.mem_singleton.mp hq2
            rw [hq3] at hqe
            exact hvne hqe
        · exact ih _ u c hnd' hm' hku

/-- The registration loop preserves the registry invariant. -/
theorem regInv_registerPdfs (w : World) (sp : String) :
    ∀ (l : List (String × Option String)) (s : CrawlState), RegInv s →
      RegInv (registerPdfs w sp s l) := by
  intro l
  induction l with
  | nil => intro s h; exact h
  | cons p rest ih =>
    intro s h
    obtain ⟨v, cv⟩ := p
    obtain ⟨h1, h2, h3, h4⟩ := h
    have hsucc_sub : ∀ x ∈ (s.persistLog.filter (fun e => e.2.2)).map (fun e => e.2.1),
        x ∈ s.downloaded.map Prod.fst := by
      intro x hx
      rcases List.mem_map.mp hx with ⟨e, he, hex⟩
      rcases List.mem_filter.mp he with ⟨he1, he2⟩
      exact hex ▸ h4 e he1 he2
    simp only [registerPdfs]
    split
    · exact ih s ⟨h1, h2, h3, h4⟩
    · rename_i hany
      have hvk : v ∉ s.downloaded.map Prod.fst := by
        intro hmem
        exact hany ((anyKey_iff_mem _ _).mpr hmem)
      split
      · refine ih _ ⟨?_, ?_, ?_, ?_⟩
        · simp only [List.map_append, List.map_cons, List.map_nil]
          refine List.Nodup.append h1 (List.nodup_singleton _) ?_
          intro x hx hx2
          rw [List.mem_singleton] at hx2
          subst hx2
          exact hvk hx
        · intro q hq
          rcases List.mem_append.mp hq with hq1 | hq2
          · exact h2 q hq1
          · rw [List.mem_singleton] at hq2
            rw [hq2]
        · simp only [List.filter_append]
          have hf : List.filter (fun e => e.2.2) [(s.clock, v, true)] = [(s.clock, v, true)] :=
            rfl
          rw [hf]
          simp only [List.map_append, List.map_cons, List.map_nil]
          refine List.Nodup.append h3 (List.nodup_singleton _) ?_
          intro x hx hx2
          rw [List.mem_singleton] at hx2
          subst hx2
          exact hvk (hsucc_sub _ hx)
        · intro e he hsucc
          simp only [List.map_append, List.map_cons, List.map_nil, List.mem_append]
          rcases List.mem_append.mp he with he1 | he2
          · exact Or.inl (h4 e he1 hsucc)
          · rw [List.mem_singleton] at he2
            subst he2
            exact Or.inr (List.mem_singleton.mpr rfl)
      · refine ih _ ⟨h1, h2, ?_, ?_⟩
        · simp only [List.filter_append]
          have hf : List.filter (fun e => e.2.2) [(s.clock, v, false)] = [] := rfl
          rw [hf]
          simpa using h3
        · intro e he hsucc
          rcases List.mem_append.mp he with he1 | he2
          · exact h4 e he1 hsucc
          · rw [List.mem_singleton] at he2
            subst he2
            simp at hsucc

/-- Processing a completed task preserves the scheduler invariant. -/
theorem schedInv_processTask (sess : Session) (w : World) (t : PageTask) (s : CrawlState)
    (hinv : SchedInv sess s) :
    SchedInv sess (processTask sess w t s) := by
  obtain ⟨hd1, hd2, hq, hi, hreg⟩ := hinv
  unfold processTask
  split
  · exact ⟨hd1, hd2, hq, hi, hreg⟩
  · split
    · exact ⟨hd1, hd2, hq, hi, hreg⟩
    · rename_i r hr
      dsimp only
      obtain ⟨hfq, hfv, hfi, hfd⟩ := registerPdfs_fields w r.final_url (extractPdfs r) s
      have hrg := regInv_registerPdfs w r.final_url (extractPdfs r) s hreg
      split
      · rename_i hlt
        unfold enqueueLinks
        refine ⟨?_, ?_, ?_, ?_, hrg⟩
        · rw [hfd]; exact hd1
        · intro u hu
          rw [hfd] at hu
          rw [hfv]
          exact hd2 u hu
        · intro t' ht'
          rcases List.mem_append.mp ht' with h1 | h2
          · rw [hfq] at h1
            exact hq t' h1
          · rcases List.mem_map.mp h2 with ⟨l, _, he⟩
            rw [← he]
            exact Nat.succ_le_of_lt hlt
        · intro t' ht'
          rw [hfi] at ht'
          exact hi t' ht'
      · refine ⟨?_, ?_, ?_, ?_, hrg⟩
        · rw [hfd]; exact hd1
        · intro u hu
          rw [hfd] at hu
          rw [hfv]
          exact hd2 u hu
        · intro t' ht'
          rw [hfq] at ht'
          exact hq t' ht'
        · intro t' ht'
          rw [hfi] at ht'
          exact hi t' ht'

/-- Every step of the run loop preserves the scheduler invariant. -/
theorem schedInv_step (sess : Session) (w : World) (s s' : CrawlState)
    (hstep : CrawlStep sess w s s') (hinv : SchedInv sess s) : SchedInv sess s' := by
  obtain ⟨hd1, hd2, hq, hi, hreg⟩ := hinv
  cases hstep with
  | dispatch_skip t rest hqe hv =>
    refine ⟨hd1, hd2, ?_, hi, hreg⟩
    intro t' ht'
    exact hq t' (by rw [hqe]; exact List.mem_cons_of_mem _ ht')
  | dispatch t rest hqe hv =>
    refine ⟨?_, ?_, ?_, ?_, hreg⟩
    · refine List.Nodup.append hd1 (List.nodup_singleton _) ?_
      intro x hx hx2
      rw [List.mem_singleton] at hx2
      subst hx2
      exact hv (hd2 _ hx)
    · intro u hu
      rcases List.mem_append.mp hu with h1 | h2
      · exact List.mem_cons_of_mem _ (hd2 u h1)
      · rw [List.mem_singleton] at h2
        subst h2
        exact List.mem_cons_self _ _
    · intro t' ht'
      exact hq t' (by rw [hqe]; exact List.mem_cons_of_mem _ ht')
    · intro t' ht'
      rcases List.mem_append.mp ht' with h1 | h2
      · exact hi t' h1
      · rw [List.mem_singleton] at h2
        subst h2
        exact hq t' (by rw [hqe]; exact List.mem_cons_self _ _)
  | complete t pre post hin =>
    refine schedInv_processTask sess w t _ ⟨hd1, hd2, hq, ?_, hreg⟩
    intro t' ht'
    rcases List.mem_append.mp ht' with h1 | h2
    · exact hi t' (by rw [hin]; exact List.mem_append_left _ h1)
    · exact hi t' (by rw [hin]; exact List.mem_append_right _ (List.mem_cons_of_mem _ h2))

/-- The initial state satisfies the scheduler invariant. -/
theorem schedInv_init (sess : Session) : SchedInv sess (initState sess) := by
  refine ⟨List.nodup_nil, ?_, ?_, ?_, List.nodup_nil, ?_, List.nodup_nil, ?_⟩
  · intro u hu; exact absurd hu (List.not_mem_nil _)
  · intro t ht
    simp only [initState, List.mem_singleton] at ht
    rw [ht]
    exact Nat.zero_le _
  · intro t ht; exact absurd ht (List.not_mem_nil _)
  · intro p hp; exact absurd hp (List.not_mem_nil _)
  · intro e he; exact absurd he (List.not_mem_nil _)

/-- The scheduler invariant holds in every reachable state. -/
theorem schedInv_reach (sess : Session) (w : World) (s : CrawlState) (h : Reach sess w s) :
    SchedInv sess s := by
  unfold Reach at h
  induction h with
  | refl => exact schedInv_init sess
  | tail hr hstep ih => exact schedInv_step sess w _ _ hstep ih

/-- With max depth 0 processing a task never enqueues anything. -/
theorem seedOnly_processTask (sess : Session) (w : World) (t : PageTask) (s : CrawlState)
    (hd : sess.maxDepth = 0) (hso : SeedOnly sess s) : SeedOnly sess (processTask sess w t s) := by
  obtain ⟨h1, h2, h3⟩ := hso
  unfold processTask
  split
  · exact ⟨h1, h2, h3⟩
  · split
    · exact ⟨h1, h2, h3⟩
    · rename_i r hr
      dsimp only
      obtain ⟨hfq, hfv, hfi, _⟩ := registerPdfs_fields w r.final_url (extractPdfs r) s
      split
      · rename_i hlt
        rw [hd] at hlt
        exact absurd hlt (Nat.not_lt_zero _)
      · refine ⟨?_, ?_, ?_⟩
        · intro t' ht'; rw [hfq] at ht'; exact h1 t' ht'
        · intro t' ht'; rw [hfi] at ht'; exact h2 t' ht'
        · intro u hu; rw [hfv] at hu; exact h3 u hu

/-- With max depth 0 every step stays within the seed URL. -/
theorem seedOnly_step (sess : Session) (w : World) (s s' : CrawlState)
    (hd : sess.maxDepth = 0) (hstep : CrawlStep sess w s s') (hso : SeedOnly sess s) :
    SeedOnly sess s' := by
  obtain ⟨h1, h2, h3⟩ := hso
  cases hstep with
  | dispatch_skip t rest hqe hv =>
    refine ⟨?_, h2, h3⟩
    intro t' ht'
    exact h1 t' (by rw [hqe]; exact List.mem_cons_of_mem _ ht')
  | dispatch t rest hqe hv =>
    refine ⟨?_, ?_, ?_⟩
    · intro t' ht'
      exact h1 t' (by rw [hqe]; exact List.mem_cons_of_mem _ ht')
    · intro t' ht'
      rcases List.mem_append.mp ht' with hx | hx
      · exact h2 t' hx
      · rw [List.mem_singleton] at hx
        rw [hx]
        exact h1 _ (by rw [hqe]; exact List.mem_cons_self _ _)
    · intro u hu
      rcases List.mem_cons.mp hu with hx | hx
      · rw [hx]
        exact h1 _ (by rw [hqe]; exact List.mem_cons_self _ _)
      · exact h3 u hx
  | complete t pre post hin =>
    refine seedOnly_processTask sess w t _ hd ⟨h1, ?_, h3⟩
    intro t' ht'
    rcases List.mem_append.mp ht' with hx | hx
    · exact h2 t' (by rw [hin]; exact List.mem_append_left _ hx)
    · exact h2 t' (by rw [hin]; exact List.mem_append_right _ (List.mem_cons_of_mem _ hx))

/-- With max depth 0 the seed-only property holds in every reachable
state. -/
theorem seedOnly_reach (sess : Session) (w : World) (hd : sess.maxDepth = 0)
    (s : CrawlState) (h : Reach sess w s) : SeedOnly sess s := by
  unfold Reach at h
  induction h with
  | refl =>
    refine ⟨?_, ?_, ?_⟩
    · intro t ht
      simp only [initState, List.mem_singleton] at ht
      rw [ht]
    · intro t ht; exact absurd ht (List.not_mem_nil _)
    · intro u hu; exact absurd hu (List.not_mem_nil _)
  | tail hr hstep ih => exact seedOnly_step sess w _ _ hd hstep ih

/-- After setdefault the key is present. -/
theorem dictFind_setdefault_self_isSome (m : List (String × Option String)) (k : String)
    (v : Option String) : (dictFind (setdefault m k v) k).isSome := by
  induction m with
  | nil => simp [setdefault, dictFind, List.find?_cons]
  | cons p rest ih =>
    by_cases hk : p.1 = k
    · have hb : (p.1 == k) = true := beq_iff_eq.mpr hk
      simp [setdefault, hb, dictFind, List.find?_cons]
    · have hb : (p.1 == k) = false := beq_eq_false_iff_ne.mpr hk
      simp only [setdefault, hb, Bool.false_eq_true, if_false, dictFind, List.find?_cons]
      exact ih

/-- Every entry after setdefault is an old entry or the new pair. -/
theorem mem_setdefault (m : List (String × Option String)) (k : String) (v : Option String)
    (q : String × Option String) (hq : q ∈ setdefault m k v) : q ∈ m ∨ q = (k, v) := by
  induction m with
  | nil =>
    simp only [setdefault, List.mem_singleton] at hq
    exact Or.inr hq
  | cons p rest ih =>
    by_cases h : p.1 = k
    · have hb : (p.1 == k) = true := beq_iff_eq.mpr h
      simp only [setdefault, hb, if_true] at hq
      exact Or.inl hq
    · have hb : (p.1 == k) = false := beq_eq_false_iff_ne.mpr h
      simp only [setdefault, hb, Bool.false_eq_true, if_false, List.mem_cons] at hq
      rcases hq with hq | hq
      · left; exact hq ▸ List.mem_cons_self _ _
      · rcases ih hq with h1 | h1
        · left; exact List.mem_cons_of_mem _ h1
        · right; exact h1

/-- The key set after setdefault is the old key set extended at most by the
new key. -/
theorem keys_setdefault_sub (m : List (String × Option String)) (k : String)
    (v : Option String) (x : String) (hx : x ∈ (setdefault m k v).map Prod.fst) :
    x ∈ m.map Prod.fst ∨ x = k := by
  rcases List.mem_map.mp hx with ⟨q, hq, he⟩
  rcases mem_setdefault m k v q hq with h1 | h1
  · exact Or.inl (List.mem_map.mpr ⟨q, h1, he⟩)
  · right; rw [h1] at he; exact he.symm ▸ rfl

/-- setdefault keeps the key set duplicate-free. -/
theorem nodup_keys_setdefault (m : List (String × Option String)) (k : String)
    (v : Option String) (h : (m.map Prod.fst).Nodup) :
    ((setdefault m k v).map Prod.fst).Nodup := by
  induction m with
  | nil => simp [setdefault]
  | cons p rest ih =>
    by_cases hk : p.1 = k
    · have hb : (p.1 == k) = true := beq_iff_eq.mpr hk
      simpa [setdefault, hb] using h
    · have hb : (p.1 == k) = false := beq_eq_false_iff_ne.mpr hk
      simp only [List.map_cons, List.nodup_cons] at h
      obtain ⟨hp, hrest⟩ := h
      simp only [setdefault, hb, Bool.false_eq_true, if_false, List.map_cons, List.nodup_cons]
      refine ⟨?_, ih hrest⟩
      intro hmem
      rcases keys_setdefault_sub rest k v p.1 hmem with h1 | h1
      · exact hp h1
      · exact hk h1

/-- The key set after a dict assignment is the old key set extended at most
by the assigned key. -/
theorem keys_dictAssign_sub (m : List (String × Option String)) (k : String)
    (v : Option String) (x : String) (hx : x ∈ (dictAssign m k v).map Prod.fst) :
    x ∈ m.map Prod.fst ∨ x = k := by
  rcases List.mem_map.mp hx with ⟨q, hq, he⟩
  rcases mem_dictAssign m k v q hq with h1 | h1
  · exact Or.inl (List.mem_map.mpr ⟨q, h1, he⟩)
  · right; rw [h1] at he; exact he.symm ▸ rfl

/-- A dict assignment keeps the key set duplicate-free. -/
theorem nodup_keys_dictAssign (m : List (String × Option String)) (k : String)
    (v : Option String) (h : (m.map Prod.fst).Nodup) :
    ((dictAssign m k v).map Prod.fst).Nodup := by
  induction m with
  | nil => simp [dictAssign]
  | cons p rest ih =>
    by_cases hk : p.1 = k
    · have hb : (p.1 == k) = true := beq_iff_eq.mpr hk
      simp only [List.map_cons, List.nodup_cons] at h
      obtain ⟨hp, hrest⟩ := h
      simp only [dictAssign, hb, if_true, List.map_cons, List.nodup_cons]
      exact ⟨by rw [← hk]; exact hp, hrest⟩
    · have hb : (p.1 == k) = false := beq_eq_false_iff_ne.mpr hk
      simp only [List.map_cons, List.nodup_cons] at h
      obtain ⟨hp, hrest⟩ := h
      simp only [dictAssign, hb, Bool.false_eq_true, if_false, List.map_cons, List.nodup_cons]
      refine ⟨?_, ih hrest⟩
      intro hmem
      rcases keys_dictAssign_sub rest k v p.1 hmem with h1 | h1
      · exact hp h1
      · exact hk h1

/-- The network pass keeps the key set duplicate-free. -/
theorem nodup_keys_network_fold (d : List (String × String)) (lbl : String) :
    ∀ (acc : List (String × Option String)), ((acc.map Prod.fst).Nodup) →
      ((List.foldl (fun m p => dictAssign m p.2 (some lbl)) acc d).map Prod.fst).Nodup := by
  induction d with
  | nil => intro acc h; exact h
  | cons p rest ih =>
    intro acc h
    exact ih (dictAssign acc p.2 (some lbl)) (nodup_keys_dictAssign acc p.2 (some lbl) h)

/-- One DOM step keeps the key set duplicate-free. -/
theorem nodup_keys_pdfStep (base : String) (m : List (String × Option String)) (t : Tag)
    (h : (m.map Prod.fst).Nodup) : ((pdfStep base m t).map Prod.fst).Nodup := by
  unfold pdfStep
  split
  · split
    · exact h
    · dsimp only
      split
      · exact h
      · exact nodup_keys_setdefault _ _ _ h
  · exact h

/-- The DOM pass keeps the key set duplicate-free. -/
theorem nodup_keys_foldl_pdfStep (base : String) (tags : List Tag) :
    ∀ (m : List (String × Option String)), ((m.map Prod.fst).Nodup) →
      ((List.foldl (pdfStep base) m tags).map Prod.fst).Nodup := by
  induction tags with
  | nil => intro m h; exact h
  | cons t rest ih =>
    intro m h
    exact ih (pdfStep base m t) (nodup_keys_pdfStep base m t h)

/-- extractDocuments returns pairwise-distinct URLs: it is built as a dict
keyed by URL. -/
theorem extractPdfs_keys_nodup (r : FetchResult) : ((extractPdfs r).map Prod.fst).Nodup := by
  unfold extractPdfs
  refine nodup_keys_foldl_pdfStep r.final_url r.content.tags _ ?_
  cases hd : r.detected_pdfs with
  | none => exact List.nodup_nil
  | some d =>
    dsimp only
    split
    · exact List.nodup_nil
    · exact nodup_keys_network_fold d _ [] List.nodup_nil

/-- A qualifying tag makes its resolved URL a present key after its own
step of the DOM pass. -/
theorem pdfStep_key_isSome (base : String) (m : List (String × Option String)) (t : Tag)
    (ua : String)
    (hname : (["a", "iframe", "embed", "object"] : List String).contains t.name = true)
    (hattr : firstTruthy [t.get "href", t.get "src", t.get "data"] = some ua)
    (hpdf : strEndsWith (lowerStr (defrag (urljoin base ua))) ".pdf" = true ∨
      t.get "type" = some "application/pdf") :
    (dictFind (pdfStep base m t) (defrag (urljoin base ua))).isSome := by
  unfold pdfStep
  rw [hname, if_pos rfl]
  split
  · rename_i heq
    rw [hattr] at heq
    exact Option.noConfusion heq
  · rename_i ua' heq
    rw [hattr] at heq
    obtain rfl : ua = ua' := Option.some.inj heq
    dsimp only
    have hcond : (!strEndsWith (lowerStr (defrag (urljoin base ua))) ".pdf"
        && !(t.get "type" == some "application/pdf")) = false := by
      rcases hpdf with hx | hx
      · rw [hx]; rfl
      · rw [hx]; simp
    rw [hcond, if_neg Bool.false_ne_true]
    exact dictFind_setdefault_self_isSome m _ _

/-- A qualifying tag anywhere in the DOM makes its resolved URL a present
key after the whole DOM pass, whatever the accumulator. -/
theorem foldl_pdfStep_key_isSome (base : String) (tags : List Tag) (t : Tag) (ua : String)
    (ht : t ∈ tags)
    (hname : (["a", "iframe", "embed", "object"] : List String).contains t.name = true)
    (hattr : firstTruthy [t.get "href", t.get "src", t.get "data"] = some ua)
    (hpdf : strEndsWith (lowerStr (defrag (urljoin base ua))) ".pdf" = true ∨
      t.get "type" = some "application/pdf") :
    ∀ (m : List (String × Option String)),
      (dictFind (List.foldl (pdfStep base) m tags) (defrag (urljoin base ua))).isSome := by
  obtain ⟨l1, l2, rfl⟩ := List.append_of_mem ht
  intro m
  rw [List.foldl_append, List.foldl_cons]
  have h1 := pdfStep_key_isSome base (List.foldl (pdfStep base) m l1) t ua hname hattr hpdf
  rw [dictFind_foldl_pdfStep base l2 _ _ h1]
  exact h1

/-- A DOM-observed document candidate always contributes its URL to
extractDocuments, with no domain condition anywhere. -/
theorem extractPdfs_key_mem (r : FetchResult) (t : Tag) (ua : String)
    (ht : t ∈ r.content.tags)
    (hname : (["a", "iframe", "embed", "object"] : List String).contains t.name = true)
    (hattr : firstTruthy [t.get "href", t.get "src", t.get "data"] = some ua)
    (hpdf : strEndsWith (lowerStr (defrag (urljoin r.final_url ua))) ".pdf" = true ∨
      t.get "type" = some "application/pdf") :
    defrag (urljoin r.final_url ua) ∈ (extractPdfs r).map Prod.fst := by
  have hs : (dictFind (extractPdfs r) (defrag (urljoin r.final_url ua))).isSome := by
    unfold extractPdfs
    exact foldl_pdfStep_key_isSome r.final_url r.content.tags t ua ht hname hattr hpdf _
  obtain ⟨q, hq⟩ := Option.isSome_iff_exists.mp hs
  obtain ⟨hqm, hqk⟩ := dictFind_eq_some_spec _ _ _ hq
  exact List.mem_map.mpr ⟨q, hqm, hqk⟩

/-- In the concrete scenario the seed task gets dispatched. -/
theorem reach_dispatchedState : Reach sess0 world0 dispatchedState :=
  Relation.ReflTransGen.single
    (CrawlStep.dispatch (initState sess0) ⟨"http://example.com/", 0⟩ [] rfl
      (List.not_mem_nil _))

/-- In the concrete scenario the seed fetch completes and is processed. -/
theorem reach_reachedState : Reach sess0 world0 reachedState :=
  Relation.ReflTransGen.tail reach_dispatchedState
    (CrawlStep.complete dispatchedState ⟨"http://example.com/", 0⟩ [] [] rfl)

/-- C3 (amended): the scheduler never hands the same URL to a fetch twice:
in every reachable state the dispatch log is duplicate-free, and every
dispatched URL is already in the visited set (insertion happens in the same
atomic step, before the fetch is handed off). -/
theorem c3_dispatch_exactly_once (sess : Session) (w : World) (s : CrawlState)
    (h : Reach sess w s) :
    s.dispatchLog.Nodup ∧ ∀ u ∈ s.dispatchLog, u ∈ s.visited := by
  obtain ⟨h1, h2, _, _, _⟩ := schedInv_reach sess w s h
  exact ⟨h1, h2⟩

/-- C3 witness: the exactly-once theorem at the concrete two-step state. -/
theorem c3_dispatch_exactly_once_witness :
    reachedState.dispatchLog.Nodup ∧
      ∀ u ∈ reachedState.dispatchLog, u ∈ reachedState.visited :=
  c3_dispatch_exactly_once sess0 world0 reachedState reach_reachedState

/-- C3 counterexample: the seed URL enters the visited set exactly as
configured, without normalization; with a fragment-bearing seed the visited
set holds a URL that is not fragment-stripped, against the claim that
VisitedSet holds normalized (fragment-stripped) URLs. -/
theorem c3_seed_not_normalized_counterexample :
    (∃ s, Reach fragSession trivialWorld s ∧ "http://example.com/page#top" ∈ s.visited) ∧
    defrag "http://example.com/page#top" ≠ "http://example.com/page#top" := by
  constructor
  · refine ⟨_, Relation.ReflTransGen.single
      (CrawlStep.dispatch (initState fragSession) ⟨"http://example.com/page#top", 0⟩ []
        rfl (List.not_mem_nil _)), ?_⟩
    exact List.mem_cons_self _ _
  · decide

/-- C4 (amended): no queued or in-flight task ever exceeds max_depth; a
task strictly below max_depth schedules every extracted not-yet-visited
link at depth+1 when it is processed; and a task at depth ≥ max_depth
schedules nothing at all. -/
theorem c4_depth_bound_and_link_scheduling (sess : Session) (w : World) :
    (∀ s, Reach sess w s →
      (∀ t ∈ s.queue, t.depth ≤ sess.maxDepth) ∧
      ∀ t ∈ s.inflight, t.depth ≤ sess.maxDepth) ∧
    (∀ (s : CrawlState) (t : PageTask) (r : FetchResult) (L : String),
      w.robotsAllowed t.url = true → w.fetch t.url = some r → t.depth < sess.maxDepth →
      L ∈ extractLinks sess r → L ∉ s.visited →
      (⟨L, t.depth + 1⟩ : PageTask) ∈ (processTask sess w t s).queue) ∧
    (∀ (s : CrawlState) (t : PageTask), sess.maxDepth ≤ t.depth →
      (processTask sess w t s).queue = s.queue) := by
  refine ⟨?_, ?_, ?_⟩
  · intro s h
    obtain ⟨_, _, hq, hi, _⟩ := schedInv_reach sess w s h
    exact ⟨hq, hi⟩
  · intro s t r L hrob hf hlt hL hnv
    unfold processTask
    rw [hrob]
    simp only [Bool.not_true, Bool.false_eq_true, if_false, hf]
    rw [if_pos hlt]
    unfold enqueueLinks
    refine List.mem_append_right _ ?_
    refine List.mem_map.mpr ⟨L, ?_, rfl⟩
    refine List.mem_filter.mpr ⟨hL, ?_⟩
    obtain ⟨_, hfv, _, _⟩ := registerPdfs_fields w r.final_url (extractPdfs r) s
    rw [hfv]
    cases hc : s.visited.contains L with
    | true => exact absurd (List.elem_iff.mp hc) hnv
    | false => rfl
  · intro s t hge
    unfold processTask
    split
    · rfl
    · split
      · rfl
      · rename_i r hr
        dsimp only
        rw [if_neg (by omega)]
        exact (registerPdfs_fields w r.final_url (extractPdfs r) s).1

/-- C4 witness: the three parts of the depth theorem at concrete inputs:
the reachable two-step state, the seed task scheduling its extracted link
at depth 1, and a depth-1 task (at max_depth) scheduling nothing. -/
theorem c4_depth_bound_and_link_scheduling_witness :
    ((∀ t ∈ reachedState.queue, t.depth ≤ sess0.maxDepth) ∧
      ∀ t ∈ reachedState.inflight, t.depth ≤ sess0.maxDepth) ∧
    (⟨"http://example.com/next", 1⟩ : PageTask) ∈
      (processTask sess0 world0 ⟨"http://example.com/", 0⟩ (initState sess0)).queue ∧
    (processTask sess0 world0 ⟨"http://example.com/next", 1⟩ reachedState).queue
      = reachedState.queue :=
  ⟨(c4_depth_bound_and_link_scheduling sess0 world0).1 reachedState reach_reachedState,
   (c4_depth_bound_and_link_scheduling sess0 world0).2.1 (initState sess0)
     ⟨"http://example.com/", 0⟩ seedPage "http://example.com/next" rfl rfl
     (by decide) (by decide) (List.not_mem_nil _),
   (c4_depth_bound_and_link_scheduling sess0 world0).2.2 reachedState
     ⟨"http://example.com/next", 1⟩ (by decide)⟩

/-- C4 counterexample: with max_depth 0 the seed task sits at depth
d = max_depth (so d ≤ max_depth), its fetch extracts a same-domain link
that is never visited, yet no task for that link is ever queued, in flight
or visited: the code enqueues links only when d < max_depth, so the
claim's "d ≤ max_depth" is wrong at d = max_depth. -/
theorem c4_link_at_max_depth_never_scheduled :
    sess1.maxDepth = 0 ∧
    "http://example.com/next" ∈ extractLinks sess1 seedPage ∧
    world0.fetch sess1.seedUrl = some seedPage ∧
    ∀ s, Reach sess1 world0 s →
      (∀ t ∈ s.queue, t.url ≠ "http://example.com/next") ∧
      (∀ t ∈ s.inflight, t.url ≠ "http://example.com/next") ∧
      "http://example.com/next" ∉ s.visited := by
  refine ⟨rfl, by decide, rfl, ?_⟩
  intro s h
  obtain ⟨h1, h2, h3⟩ := seedOnly_reach sess1 world0 rfl s h
  refine ⟨?_, ?_, ?_⟩
  · intro t ht hne
    have hx := h1 t ht
    rw [hne] at hx
    exact absurd hx (by decide)
  · intro t ht hne
    have hx := h2 t ht
    rw [hne] at hx
    exact absurd hx (by decide)
  · intro hm
    exact absurd (h3 _ hm) (by decide)

/-- C5: in every reachable state the downloaded registry holds
pairwise-distinct document URLs, at most one successful persist happens
per URL, and registering an already-known URL is dropped without any side
effect (first writer wins). -/
theorem c5_registry_first_writer_wins (sess : Session) (w : World) (s : CrawlState)
    (h : Reach sess w s) :
    (s.downloaded.map (fun p => p.2.url)).Nodup ∧
    ((s.persistLog.filter (fun e => e.2.2)).map (fun e => e.2.1)).Nodup ∧
    ∀ (sp u : String) (ctx : Option String) (rest : List (String × Option String)),
      s.downloaded.any (fun p => p.1 == u) = true →
      registerPdfs w sp s ((u, ctx) :: rest) = registerPdfs w sp s rest := by
  obtain ⟨_, _, _, _, h1, h2, h3, _⟩ := schedInv_reach sess w s h
  refine ⟨?_, h3, ?_⟩
  · have he : s.downloaded.map (fun p => p.2.url) = s.downloaded.map Prod.fst :=
      List.map_congr_left (fun p hp => h2 p hp)
    rw [he]
    exact h1
  · intro sp u ctx rest hany
    simp [registerPdfs, hany]

/-- C5 witness: the registry theorem at the concrete two-step state, whose
registry holds the two extracted documents; re-registering the first URL
is a no-op. -/
theorem c5_registry_first_writer_wins_witness :
    (reachedState.downloaded.map (fun p => p.2.url)).Nodup ∧
    registerPdfs world0 "http://example.com/" reachedState
        [("http://example.com/docs/report.pdf", some "again")]
      = registerPdfs world0 "http://example.com/" reachedState [] :=
  ⟨(c5_registry_first_writer_wins sess0 world0 reachedState reach_reachedState).1,
   (c5_registry_first_writer_wins sess0 world0 reachedState reach_reachedState).2.2
     "http://example.com/" "http://example.com/docs/report.pdf" (some "again") []
     (by decide)⟩

/-- C9: document candidates are not filtered by the session's allowed
domains: any anchor/iframe/embed/object tag whose reference resolves to a
.pdf URL (or is declared application/pdf) contributes its URL to
extractDocuments — the session and its allowed domains appear nowhere in
the hypotheses — and the registration loop performs a persistence attempt
for it whenever it is not yet registered, whatever its host. -/
theorem c9_documents_not_domain_filtered (r : FetchResult) (t : Tag) (ua : String)
    (ht : t ∈ r.content.tags)
    (hname : (["a", "iframe", "embed", "object"] : List String).contains t.name = true)
    (hattr : firstTruthy [t.get "href", t.get "src", t.get "data"] = some ua)
    (hpdf : strEndsWith (lowerStr (defrag (urljoin r.final_url ua))) ".pdf" = true ∨
      t.get "type" = some "application/pdf") :
    defrag (urljoin r.final_url ua) ∈ (extractPdfs r).map Prod.fst ∧
    ∀ (w : World) (sp : String) (s : CrawlState),
      defrag (urljoin r.final_url ua) ∉ s.downloaded.map Prod.fst →
      ∃ n b, (n, defrag (urljoin r.final_url ua), b) ∈
        (registerPdfs w sp s (extractPdfs r)).persistLog := by
  refine ⟨extractPdfs_key_mem r t ua ht hname hattr hpdf, ?_⟩
  intro w sp s hku
  obtain ⟨q, hq, hqk⟩ := List.mem_map.mp (extractPdfs_key_mem r t ua ht hname hattr hpdf)
  obtain ⟨qk, qc⟩ := q
  dsimp only at hqk
  rw [hqk] at hq
  exact registerPdfs_attempts w sp (extractPdfs r) s _ qc (extractPdfs_keys_nodup r) hq hku

/-- C9 witness: the off-domain PDF link of the seed page (host
cdn.example.org, not the session's example.com) is extracted and a
persistence attempt is made for it. -/
theorem c9_documents_not_domain_filtered_witness :
    isSameDomain sess0 "http://cdn.example.org/white.pdf" = false ∧
    "http://cdn.example.org/white.pdf" ∈ (extractPdfs seedPage).map Prod.fst ∧
    ∃ n b, (n, "http://cdn.example.org/white.pdf", b) ∈
      (registerPdfs world0 "http://example.com/" (initState sess0)
        (extractPdfs seedPage)).persistLog := by
  have h := c9_documents_not_domain_filtered seedPage
    { name := "a", attrs := [("href", "http://cdn.example.org/white.pdf")],
      text := "White paper", parentText := none }
    "http://cdn.example.org/white.pdf" (by decide) (by decide) (by decide)
    (Or.inl (by decide))
  exact ⟨by decide, h.1, h.2 world0 "http://example.com/" (initState sess0)
    (List.not_mem_nil _)⟩

/-- C10: a failed persistence attempt leaves the downloaded registry
unchanged — the failed URL is not recorded — and a later discovery of the
same URL, in any state where it is still unregistered, performs a fresh
persistence attempt instead of being dropped as already known. -/
theorem c10_failed_persist_not_recorded (w : World) (sp : String) (s : CrawlState)
    (u : String) (ctx : Option String) (hf : w.persist s.clock u = false) :
    (registerPdfs w sp s [(u, ctx)]).downloaded = s.downloaded ∧
    ∀ (sp2 : String) (s2 : CrawlState) (ctx2 : Option String),
      s2.downloaded.any (fun p => p.1 == u) = false →
      (s2.clock, u, w.persist s2.clock u) ∈
        (registerPdfs w sp2 s2 [(u, ctx2)]).persistLog := by
  constructor
  · cases hany : s.downloaded.any (fun p => p.1 == u) with
    | true => simp [registerPdfs, hany]
    | false =>
      simp only [registerPdfs, hany, Bool.false_eq_true, if_false, hf]
  · intro sp2 s2 ctx2 hany
    simp only [registerPdfs, hany, Bool.false_eq_true, if_false]
    cases hp : w.persist s2.clock u with
    | true =>
      rw [if_pos rfl]
      exact List.mem_append_right _ (List.mem_singleton.mpr rfl)
    | false =>
      rw [if_neg Bool.false_ne_true]
      exact List.mem_append_right _ (List.mem_singleton.mpr rfl)

/-- C10 witness: with a persistence oracle failing at time 0 and working
from time 1, a failed registration leaves the registry empty and a retry
at time 1 attempts — and succeeds — again. -/
theorem c10_failed_persist_not_recorded_witness :
    (registerPdfs retryWorld "http://example.com/" (initState sess0)
        [("http://example.com/docs/report.pdf", some "Report")]).downloaded
      = (initState sess0).downloaded ∧
    (1, "http://example.com/docs/report.pdf", true) ∈
      (registerPdfs retryWorld "http://example.com/"
          { initState sess0 with clock := 1 }
          [("http://example.com/docs/report.pdf", some "Report")]).persistLog := by
  have h := c10_failed_persist_not_recorded retryWorld "http://example.com/"
    (initState sess0) "http://example.com/docs/report.pdf" (some "Report") (by decide)
  exact ⟨h.1, h.2 "http://example.com/" { initState sess0 with clock := 1 }
    (some "Report") (by decide)⟩

/-- strStartsWith expressed as a list-level prefix relation. -/
theorem strStartsWith_iff {s p : String} : strStartsWith s p = true ↔ p.toList <+: s.toList :=
  List.isPrefixOf_iff_prefix

/-- takeWhile is idempotent. -/
theorem takeWhile_idem (p : Char → Bool) (l : List Char) :
    (l.takeWhile p).takeWhile p = l.takeWhile p := by
  induction l with
  | nil => rfl
  | cons a t ih =>
    cases hp : p a with
    | true => simp [List.takeWhile_cons, hp, ih]
    | false => simp [List.takeWhile_cons, hp]

/-- Fragment stripping is idempotent: a stripped URL strips to itself. -/
theorem defrag_defrag (s : String) : defrag (defrag s) = defrag s :=
  congrArg String.mk (takeWhile_idem _ _)

/-- Two strings with a common prefix relation share their first
character. -/
theorem startsWith_head_eq (u p : String) (cu cp : Char) (hu : u.toList.head? = some cu)
    (hp : p.toList.head? = some cp) (h : strStartsWith u p = true) : cu = cp := by
  obtain ⟨t, ht⟩ := strStartsWith_iff.mp h
  cases hpl : p.toList with
  | nil => rw [hpl] at hp; exact Option.noConfusion hp
  | cons a l =>
    rw [hpl] at hp ht
    rw [← ht] at hu
    rw [List.cons_append, List.head?_cons] at hu
    have h1 : a = cu := Option.some.inj hu
    have h2 : a = cp := Option.some.inj hp
    rw [← h1, ← h2]

/-- A bad-scheme prefix of the stripped URL is already a prefix of the raw
reference. -/
theorem defrag_keeps_bad (href p : String) (hx : strStartsWith (defrag href) p = true) :
    strStartsWith href p = true := by
  have h1 := strStartsWith_iff.mp hx
  have h2 := List.takeWhile_prefix (l := href.toList) (fun c => c != '#')
  exact strStartsWith_iff.mpr (h1.trans h2)

/-- A string whose head lowercases to 'h' cannot, after fragment
stripping, start with "mailto:" or "javascript:". -/
theorem defrag_h_not_bad (s : String) (c : Char) (hc : s.toList.head? = some c)
    (hh : c.toLower = 'h') :
    strStartsWith (defrag s) "mailto:" = false ∧
    strStartsWith (defrag s) "javascript:" = false := by
  have hcn : (c != '#') = true := by
    rw [bne_iff_ne]
    intro he
    rw [he] at hh
    exact absurd hh (by decide)
  have hdh : (defrag s).toList.head? = some c := by
    cases hl : s.toList with
    | nil => rw [hl] at hc; exact Option.noConfusion hc
    | cons a t =>
      rw [hl] at hc
      have ha : a = c := Option.some.inj hc
      subst ha
      show (s.toList.takeWhile (fun x => x != '#')).head? = some a
      rw [hl, List.takeWhile_cons, if_pos hcn]
      rfl
  constructor
  · cases hx : strStartsWith (defrag s) "mailto:" with
    | false => rfl
    | true =>
      have he := startsWith_head_eq (defrag s) "mailto:" c 'm' hdh rfl hx
      rw [he] at hh
      exact absurd hh (by decide)
  · cases hx : strStartsWith (defrag s) "javascript:" with
    | false => rfl
    | true =>
      have he := startsWith_head_eq (defrag s) "javascript:" c 'j' hdh rfl hx
      rw [he] at hh
      exact absurd hh (by decide)

/-- The head of a string concatenation is the head of its first part. -/
theorem strCat_head (a b : String) (c : Char) (h : a.toList.head? = some c) :
    (strCat a b).toList.head? = some c := by
  cases hl : a.toList with
  | nil => rw [hl] at h; exact Option.noConfusion h
  | cons x t =>
    rw [hl] at h
    show (a.toList ++ b.toList).head? = some c
    rw [hl, List.cons_append, List.head?_cons]
    exact h

/-- A URL whose parsed scheme is http or https starts with a character
that lowercases to 'h'. -/
theorem head_of_http_scheme (base : String)
    (hb : urlScheme base = some "http" ∨ urlScheme base = some "https") :
    ∃ c, base.toList.head? = some c ∧ c.toLower = 'h' := by
  have hs : ∃ sch, urlScheme base = some sch ∧ sch.toList.head? = some 'h' := by
    rcases hb with h | h
    · exact ⟨"http", h, rfl⟩
    · exact ⟨"https", h, rfl⟩
  obtain ⟨sch, hsch, hh⟩ := hs
  unfold urlScheme schemeSplit at hsch
  dsimp only at hsch
  split at hsch
  · have hpre : (base.toList.takeWhile (fun c => c != ':')).map Char.toLower = sch.toList := by
      have h1 : (⟨(base.toList.takeWhile (fun c => c != ':')).map Char.toLower⟩ : String)
          = sch := Option.some.inj hsch
      exact congrArg String.toList h1
    rw [← hpre] at hh
    cases hl : base.toList with
    | nil =>
      rw [hl] at hh
      simp at hh
    | cons a t =>
      rw [hl] at hh
      rw [List.takeWhile_cons] at hh
      by_cases ha : (a != ':') = true
      · rw [if_pos ha] at hh
        simp only [List.map_cons, List.head?_cons] at hh
        exact ⟨a, rfl, Option.some.inj hh⟩
      · rw [if_neg ha] at hh
        simp at hh
  · exact Option.noConfusion hsch

/-- Joining a non-mailto, non-javascript reference onto an http(s) base and
stripping the fragment never produces a mailto: or javascript: URL. -/
theorem urljoin_not_bad (base href : String)
    (hb : urlScheme base = some "http" ∨ urlScheme base = some "https")
    (h1 : strStartsWith href "mailto:" = false)
    (h2 : strStartsWith href "javascript:" = false) :
    strStartsWith (defrag (urljoin base href)) "mailto:" = false ∧
    strStartsWith (defrag (urljoin base href)) "javascript:" = false := by
  obtain ⟨c, hc, hcl⟩ := head_of_http_scheme base hb
  have hsc : ∃ sc, urlScheme base = some sc ∧ sc.toList.head? = some 'h' := by
    rcases hb with h | h
    · exact ⟨"http", h, rfl⟩
    · exact ⟨"https", h, rfl⟩
  obtain ⟨sc, hsc, hsch⟩ := hsc
  unfold urljoin
  split
  · exact defrag_h_not_bad base c hc hcl
  · split
    · constructor
      · cases hx : strStartsWith (defrag href) "mailto:" with
        | false => rfl
        | true =>
          have hk := defrag_keeps_bad href "mailto:" hx
          rw [h1] at hk
          exact Bool.noConfusion hk
      · cases hx : strStartsWith (defrag href) "javascript:" with
        | false => rfl
        | true =>
          have hk := defrag_keeps_bad href "javascript:" hx
          rw [h2] at hk
          exact Bool.noConfusion hk
    · rw [hsc]
      dsimp only
      have hschc : (strCat sc ":").toList.head? = some 'h' := strCat_head sc ":" 'h' hsch
      split
      · exact defrag_h_not_bad _ 'h' (strCat_head _ href 'h' hschc) rfl
      · split
        · exact defrag_h_not_bad _ 'h'
            (strCat_head _ href 'h' (strCat_head _ (netloc base) 'h'
              (strCat_head _ "//" 'h' hschc))) rfl
        · exact defrag_h_not_bad _ 'h'
            (strCat_head _ _ 'h' (strCat_head _ (netloc base) 'h'
              (strCat_head _ "//" 'h' hschc))) rfl

/-- Every link yielded by the _extract_links loop comes from an href that
passed the scheme filters, is the fragment-stripped join of that href onto
the base, passes the same-domain filter, and is not in the seen set. -/
theorem extractLinksAux_mem (sess : Session) (base : String) :
    ∀ (tags : List Tag) (seen : List String) (u : String),
      u ∈ extractLinksAux sess base tags seen →
      (∃ href, strStartsWith href "mailto:" = false ∧
        strStartsWith href "javascript:" = false ∧ u = defrag (urljoin base href)) ∧
      isSameDomain sess u = true ∧ u ∉ seen := by
  intro tags
  induction tags with
  | nil => intro seen u h; exact absurd h (List.not_mem_nil _)
  | cons t rest ih =>
    intro seen u h
    simp only [extractLinksAux] at h
    split at h
    · split at h
      · exact ih seen u h
      · rename_i hgood
        rw [Bool.or_eq_true, not_or] at hgood
        obtain ⟨hm, hj⟩ := hgood
        rw [Bool.not_eq_true] at hm hj
        split at h
        · rename_i hcond
          rw [Bool.and_eq_true] at hcond
          obtain ⟨hdom, hseen⟩ := hcond
          rcases List.mem_cons.mp h with hu | hu
          · subst hu
            refine ⟨⟨(t.get "href").getD "", hm, hj, rfl⟩, hdom, ?_⟩
            intro hmem
            rw [Bool.not_eq_true'] at hseen
            have hcontra : seen.contains (defrag (urljoin base ((t.get "href").getD "")))
                = true := List.elem_iff.mpr hmem
            rw [hseen] at hcontra
            exact Bool.noConfusion hcontra
          · obtain ⟨he, hd, hs⟩ := ih _ u hu
            exact ⟨he, hd, fun hx => hs (List.mem_cons_of_mem _ hx)⟩
        · exact ih seen u h
    · exact ih seen u h

/-- The links yielded by the _extract_links loop are pairwise distinct. -/
theorem extractLinksAux_nodup (sess : Session) (base : String) :
    ∀ (tags : List Tag) (seen : List String), (extractLinksAux sess base tags seen).Nodup := by
  intro tags
  induction tags with
  | nil => intro seen; exact List.nodup_nil
  | cons t rest ih =>
    intro seen
    simp only [extractLinksAux]
    split
    · split
      · exact ih seen
      · split
        · refine List.nodup_cons.mpr ⟨?_, ih _⟩
          intro hmem
          have hs := (extractLinksAux_mem sess base rest _ _ hmem).2.2
          exact hs (List.mem_cons_self _ _)
        · exact ih seen
    · exact ih seen

/-- C7: every URL yielded by extractLinks is fragment-stripped (stripping
it again changes nothing), its host is the session's allowed host (the
start URL's host only), it does not use the mailto: or javascript: scheme
(the page URL being an http(s) URL), and the yielded sequence contains no
duplicates. -/
theorem c7_extract_links_contract (sess : Session) (r : FetchResult)
    (hb : urlScheme r.final_url = some "http" ∨ urlScheme r.final_url = some "https") :
    (extractLinks sess r).Nodup ∧
    ∀ u ∈ extractLinks sess r,
      defrag u = u ∧ netloc u ∈ sess.allowedDomains ∧
      strStartsWith u "mailto:" = false ∧ strStartsWith u "javascript:" = false := by
  refine ⟨extractLinksAux_nodup sess r.final_url r.content.tags [], ?_⟩
  intro u hu
  obtain ⟨⟨href, hm, hj, heq⟩, hdom, _⟩ :=
    extractLinksAux_mem sess r.final_url r.content.tags [] u hu
  refine ⟨?_, ?_, ?_, ?_⟩
  · rw [heq]; exact defrag_defrag _
  · exact List.elem_iff.mp hdom
  · rw [heq]; exact (urljoin_not_bad r.final_url href hb hm hj).1
  · rw [heq]; exact (urljoin_not_bad r.final_url href hb hm hj).2

/-- C7 witness: the contract evaluated on the concrete seed page (two
same-domain links, the off-domain link filtered out). -/
theorem c7_extract_links_contract_witness :
    (urlScheme seedPage.final_url = some "http" ∨
      urlScheme seedPage.final_url = some "https") ∧
    (extractLinks sess0 seedPage).Nodup ∧
    ∀ u ∈ extractLinks sess0 seedPage,
      defrag u = u ∧ netloc u ∈ sess0.allowedDomains ∧
      strStartsWith u "mailto:" = false ∧ strStartsWith u "javascript:" = false :=
  ⟨Or.inl (by decide),
   (c7_extract_links_contract sess0 seedPage (Or.inl (by decide))).1,
   (c7_extract_links_contract sess0 seedPage (Or.inl (by decide))).2⟩
